import Mathlib

/-!
Verification of the `mls::List` doubly linked list container (src/List.hpp).

Two embeddings are used, both translated from the source:

* A sequence-level model `ListS`: the container state is the sequence of
  element values held by the real nodes (in forward order from the sentinel)
  together with the `sz_` counter.  Each operation updates the sequence
  according to its pointer manipulations and updates `sz` exactly where the
  source updates `sz_`.

* A pointer-level model `Heap`: node addresses are natural numbers, and the
  state is the pair of link maps `next_` / `prev_` plus the stored data.
  Operations are the literal pointer writes of the source, in source order.
  `Rep h s ids` states that starting from sentinel `s` the circular chain
  visits exactly the real nodes `ids`.

The sort algorithm (`List::sort`) is modelled over the sequence with
iterators as positions, keeping the source's two comparison lambdas, the
backward scan of the inner loop and the node relocation of the outer loop.
-/

namespace mls

/-- Sequence-level state of an `mls::List`: the forward sequence of element
values held by the real nodes, and the `sz_` counter. -/
structure ListS (α : Type) where
  seq : List α
  sz : Nat
  deriving DecidableEq

/-- `push_back` (src/List.hpp lines 223-236): constructs one node holding `el`,
splices it in front of the sentinel (so at the tail of the sequence) via
`insert_node(&fake_node_, new_node)`, and increments `sz_`. -/
def push_backS {α : Type} (l : ListS α) (el : α) : ListS α :=
  { seq := l.seq ++ [el], sz := l.sz + 1 }

/-- `clear` (lines 194-206): destroys every real node and resets the container
to the empty state with `sz_ = 0`. -/
def clearS {α : Type} (_l : ListS α) : ListS α :=
  { seq := [], sz := 0 }

/-- Copy assignment `operator=(const List&)` (lines 167-176): first calls
`clear()`, then walks the source front to back pushing back a copy of each
element. -/
def copyAssignS {α : Type} (dst src : ListS α) : ListS α :=
  src.seq.foldl push_backS (clearS dst)

/-- Copy assignment applied to the same instance (`a = a`): the source alias
is cleared by the initial `clear()` call, so the subsequent copy loop runs
over the already-emptied sequence. -/
def selfCopyAssignS {α : Type} (a : ListS α) : ListS α :=
  (clearS a).seq.foldl push_backS (clearS a)

/-- Copy-merge `merge(List& other)` (lines 265-281): for each element of
`other`, constructs a copy node and splices it in front of the sentinel via
`insert_node(end().node_, new_node)`.  The loop body never updates `sz_`. -/
def mergeCopyS {α : Type} (a b : ListS α) : ListS α :=
  b.seq.foldl (fun acc el => { seq := acc.seq ++ [el], sz := acc.sz }) a

/-- Move-merge `merge(List&& other)` (lines 283-298): splices the whole chain
of `other` onto the tail and adds `other.sz_` to `sz_`, emptying `other`.
Returns the pair (this, other) after the call. -/
def mergeMoveS {α : Type} (a b : ListS α) : ListS α × ListS α :=
  ({ seq := a.seq ++ b.seq, sz := a.sz + b.sz }, { seq := [], sz := 0 })

/-- Outstanding allocations of the node allocator: number of `allocate` calls
minus number of `deallocate` calls. -/
structure AllocSt where
  live : Nat
  deriving DecidableEq

/-- Failure scenarios for `obj_construct` (lines 375-382): `allocate` may
throw before any memory exists, or the element constructor invoked by
`construct` may throw after `allocate` succeeded. -/
inductive BuildOutcome where
  | ok
  | allocFail
  | ctorFail
  deriving DecidableEq

/-- `obj_construct` (lines 375-382): `allocate(1)` then `construct`.  If
`allocate` throws, nothing was allocated.  If `construct` throws, the chunk
from `allocate` is left allocated because the exception propagates out of
`obj_construct` before the pointer is returned.  `none` signals that an
exception escaped (so the caller's `new_node` was never assigned). -/
def obj_constructS (st : AllocSt) (m : BuildOutcome) : AllocSt × Option Unit :=
  match m with
  | .ok => (⟨st.live + 1⟩, some ())
  | .allocFail => (st, none)
  | .ctorFail => (⟨st.live + 1⟩, none)

/-- `obj_destruct(nullptr)`: what the catch blocks of `push_front`,
`push_back` and `insert` actually execute on failure, since `new_node` is
still `nullptr` when `obj_construct` throws.  `deallocate(nullptr, 1)`
releases nothing (and `destroy(nullptr)` dereferences a null pointer). -/
def obj_destruct_nullS (st : AllocSt) : AllocSt :=
  st

/-- `push_back` with the failure handling of lines 223-236 made explicit.
The returned `Bool` is `true` when the call completed and `false` when it
exited by rethrowing `std::bad_alloc` from the catch block. -/
def push_backF {α : Type} (l : ListS α) (st : AllocSt) (el : α) (m : BuildOutcome) :
    ListS α × AllocSt × Bool :=
  match obj_constructS st m with
  | (st', some _) => (push_backS l el, st', true)
  | (st', none) => (l, obj_destruct_nullS st', false)

/-- Pointwise update of a link map: the effect of one pointer write. -/
def updFn (f : Nat → Nat) (i v : Nat) : Nat → Nat :=
  fun j => if j = i then v else f j

/-- Pointer-level state: node addresses are naturals, `next` and `prev` are
the two link fields of every node, `data` the stored element. -/
structure Heap (α : Type) where
  next : Nat → Nat
  prev : Nat → Nat
  data : Nat → α

/-- A container at pointer level: its heap, the address of its sentinel
(`fake_node_`), and its `sz_` counter. -/
structure ListH (α : Type) where
  heap : Heap α
  sent : Nat
  sz : Nat

/-- `DChain h u xs v`: starting at node `u`, following `next_` visits exactly
the nodes `xs` and then arrives at `v`, with every `prev_` link along the way
pointing back correctly. -/
inductive DChain {α : Type} (h : Heap α) : Nat → List Nat → Nat → Prop where
  | nil : ∀ {u v : Nat}, h.next u = v → h.prev v = u → DChain h u [] v
  | cons : ∀ {u x v : Nat} {xs : List Nat}, h.next u = x → h.prev x = u →
      DChain h x xs v → DChain h u (x :: xs) v

/-- Representation invariant of `mls::List`: from the sentinel `s` the
circular doubly linked chain passes through exactly the real nodes `ids`
(in forward order) and returns to `s`; all addresses are distinct. -/
def Rep {α : Type} (h : Heap α) (s : Nat) (ids : List Nat) : Prop :=
  DChain h s ids s ∧ (s :: ids).Nodup

/-- Representation invariant of a container together with its counter:
`sz_` equals the number of real nodes on the chain. -/
def RepL {α : Type} (L : ListH α) (ids : List Nat) : Prop :=
  Rep L.heap L.sent ids ∧ L.sz = ids.length

/-- Forward walk of the iterator loop `for (it = begin(); it != end(); ++it)`
starting at node `cur`: collects the visited node addresses until the
sentinel `s` is reached; `none` when `fuel` steps do not reach it. -/
def iterNodes {α : Type} (h : Heap α) (s : Nat) : Nat → Nat → Option (List Nat)
  | cur, 0 => if cur = s then some [] else none
  | cur, fuel + 1 =>
    if cur = s then some []
    else (iterNodes h s (h.next cur) fuel).map (cur :: ·)

/-- Forward iteration of a container: from `begin() = fake_node_.next_` to
`end() = &fake_node_`. -/
def iterFwd {α : Type} (h : Heap α) (s : Nat) (fuel : Nat) : Option (List Nat) :=
  iterNodes h s (h.next s) fuel

/-- The heap with the roles of the two link fields exchanged; walking it
forward is walking the original backward. -/
def flipH {α : Type} (h : Heap α) : Heap α :=
  ⟨h.prev, h.next, h.data⟩

/-- Backward iteration: follows `prev_` from the sentinel, as the reverse
iterators do. -/
def iterBwd {α : Type} (h : Heap α) (s : Nat) (fuel : Nat) : Option (List Nat) :=
  iterFwd (flipH h) s fuel

/-- The element values produced by forward iteration. -/
def iterVals {α : Type} (h : Heap α) (s : Nat) (fuel : Nat) : Option (List α) :=
  (iterFwd h s fuel).map (List.map h.data)

/-- The `while` loop of `clear` (lines 197-203): repeatedly rewrites
`fake_node_.next_` to skip and destroy the first node, until the sentinel
points at itself.  `none` if `fuel` iterations do not finish. -/
def clearLoop {α : Type} : Heap α → Nat → Nat → Option (Heap α)
  | h, s, 0 => if h.next s = s then some h else none
  | h, s, fuel + 1 =>
    if h.next s = s then some h
    else clearLoop { h with next := updFn h.next s (h.next (h.next s)) } s fuel

/-- `clear` (lines 194-206): the unlink loop followed by
`fake_node_.prev_ = &fake_node_`. -/
def clearH {α : Type} (h : Heap α) (s : Nat) (fuel : Nat) : Option (Heap α) :=
  (clearLoop h s fuel).map (fun h2 => { h2 with prev := updFn h2.prev s s })

/-- The pointer writes of move assignment `operator=(List&&)` (lines
182-188), in source order, for destination sentinel `sA` and source sentinel
`sB`: adopt the source's two sentinel links, point the two adopted endpoint
nodes back at the destination sentinel, then self-link the source sentinel. -/
def moveAssignH {α : Type} (h : Heap α) (sA sB : Nat) : Heap α :=
  let h1 := { h with next := updFn h.next sA (h.next sB) }
  let h2 := { h1 with prev := updFn h1.prev sA (h1.prev sB) }
  let h3 := { h2 with prev := updFn h2.prev (h2.next sA) sA }
  let h4 := { h3 with next := updFn h3.next (h3.prev sA) sA }
  let h5 := { h4 with next := updFn h4.next sB sB }
  { h5 with prev := updFn h5.prev sB sB }

/-- Full move assignment (lines 178-192): `clear()` on the destination, then
the pointer transfer.  The `sz_` updates are `sz_ = move_list.sz_` and
`move_list.sz_ = 0`. -/
def moveAssignFullH {α : Type} (h : Heap α) (sA sB : Nat) (fuel : Nat) : Option (Heap α) :=
  (clearH h sA fuel).map (fun h2 => moveAssignH h2 sA sB)

/-- `swap` (lines 300-307) after the self-check: `std::swap` of the two
sentinels' `next_` fields, then of their `prev_` fields (the size counters
are exchanged separately).  No other pointer is touched. -/
def swapH {α : Type} (h : Heap α) (sA sB : Nat) : Heap α :=
  let h1 := { h with next := updFn (updFn h.next sA (h.next sB)) sB (h.next sA) }
  { h1 with prev := updFn (updFn h1.prev sA (h1.prev sB)) sB (h1.prev sA) }

/-- `swap` including the `this == &other` early return. -/
def swapFullH {α : Type} (h : Heap α) (sA sB : Nat) : Heap α :=
  if sA = sB then h else swapH h sA sB

/-- The pointer writes of `erase` (lines 255-263): unlink `del_node` by
routing its neighbours around it.  The node's own links are never cleared
and the node is then destroyed. -/
def eraseH {α : Type} (h : Heap α) (del_node : Nat) : Heap α :=
  let h1 := { h with next := updFn h.next (h.prev del_node) (h.next del_node) }
  { h1 with prev := updFn h1.prev (h1.next del_node) (h1.prev del_node) }

/-- `erase(iterator& it)` on a container: returns the container after the
call together with the node address held by the caller's iterator after the
call.  The function returns `void` and never assigns `it.node_`, so the
iterator still holds the erased address; `sz_` is decremented. -/
def eraseL {α : Type} (L : ListH α) (it : Nat) : ListH α × Nat :=
  (⟨eraseH L.heap it, L.sent, L.sz - 1⟩, it)

/-- One iteration of the `reverse` loop body: `std::swap(it->next_, it->prev_)`
at node `n`. -/
def swapAt {α : Type} (h : Heap α) (n : Nat) : Heap α :=
  { next := updFn h.next n (h.prev n), prev := updFn h.prev n (h.next n),
    data := h.data }

/-- The loop of `reverse` (lines 348-351): starting at `begin()`, swap the
two links of the current node and step with `--it`, which after the swap
follows the node's original `next_`; stops at the sentinel. -/
def revLoop {α : Type} (s : Nat) : Heap α → Nat → Nat → Heap α
  | h, _, 0 => h
  | h, cur, fuel + 1 =>
    if cur = s then h
    else revLoop s (swapAt h cur) ((swapAt h cur).prev cur) fuel

/-- `reverse` (lines 345-353): the loop over the real nodes followed by the
final swap of the sentinel's own links.  No allocation takes place: only
link fields of existing nodes are written. -/
def reverseH {α : Type} (h : Heap α) (s : Nat) (fuel : Nat) : Heap α :=
  swapAt (revLoop s h (h.next s) fuel) s

/-- `reverse` on a container: `sz_` is not touched by the source. -/
def reverseL {α : Type} (L : ListH α) (fuel : Nat) : ListH α :=
  ⟨reverseH L.heap L.sent fuel, L.sent, L.sz⟩

/-- The loop condition of `sort`'s inner scan at backward position `j`
(line 326): `lamb(*it_i, *it_j)` and (`it_next == end()` -- i.e. `j = 0` --
or `lamb_t(*it_next, *it_i)` for `it_next` the predecessor of `it_j`). -/
def condAt {α : Type} (cmp cmpT : α → α → Bool) (l : List α) (x : α) (j : Nat) : Bool :=
  match l[j]? with
  | none => false
  | some y =>
    cmp x y &&
      (j == 0 ||
        match l[j - 1]? with
        | none => false
        | some z => cmpT z x)

/-- The inner loop of `sort` (lines 320-339): `it_j` scans backward from the
predecessor of `it_i` (position `j` downward) and stops at the first position
whose condition holds; reaching `end()` without a hit yields `none`. -/
def scanBack {α : Type} (cmp cmpT : α → α → Bool) (l : List α) (x : α) : Nat → Option Nat
  | 0 => if condAt cmp cmpT l x 0 then some 0 else none
  | j + 1 =>
    if condAt cmp cmpT l x (j + 1) then some (j + 1)
    else scanBack cmp cmpT l x j

/-- The relocation of lines 330-333: unlink the node at position `i` and
re-splice it directly before position `j` via `insert_node`. -/
def relocate {α : Type} (l : List α) (i j : Nat) : List α :=
  match l[i]? with
  | none => l
  | some x => (l.eraseIdx i).insertIdx j x

/-- The outer loop of `sort` (lines 318-342) over iterator positions: `it_i`
starts at the second element; on a hit the node is relocated and `it_i`
becomes the old successor (which sits at position `i + 1` after the
relocation, since the node moved to `j ≤ i - 1`); otherwise `++it_i`.  The
loop runs while `it_i != end()`, i.e. `i < length`; `fuel` bounds the number
of iterations (the loop performs exactly `length - 1`). -/
def sortLoop {α : Type} (cmp cmpT : α → α → Bool) : List α → Nat → Nat → List α
  | l, _, 0 => l
  | l, i, fuel + 1 =>
    match l[i]? with
    | none => l
    | some x =>
      match scanBack cmp cmpT l x (i - 1) with
      | some j => sortLoop cmp cmpT (relocate l i j) (i + 1) fuel
      | none => sortLoop cmp cmpT l (i + 1) fuel

/-- `sort` (lines 309-343) for given comparison lambdas: return immediately
when `sz_ < 2`, otherwise run the relocation loop from the second element. -/
def sortG {α : Type} (cmp cmpT : α → α → Bool) (l : List α) : List α :=
  if l.length < 2 then l else sortLoop cmp cmpT l 1 l.length

/-- The strict predicate selected at line 314: `<` when ascending, `>` when
descending. -/
def lamb {α : Type} [LinearOrder α] (ascending : Bool) : α → α → Bool :=
  if ascending then fun a b => decide (a < b) else fun a b => decide (a > b)

/-- The non-strict predicate selected at line 315: `≤` when ascending, `≥`
when descending. -/
def lamb_t {α : Type} [LinearOrder α] (ascending : Bool) : α → α → Bool :=
  if ascending then fun a b => decide (a ≤ b) else fun a b => decide (a ≥ b)

/-- `sort(ascending)` on the element sequence. -/
def sortS {α : Type} [LinearOrder α] (l : List α) (ascending : Bool) : List α :=
  sortG (lamb ascending) (lamb_t ascending) l

/-- `sort(ascending)` run on nodes tagged with their original position.  The
comparison lambdas read only the stored data, exactly as the source's `lamb`
and `lamb_t` do; the tag stands for the node's identity. -/
def sortTagged {α : Type} [LinearOrder α] (l : List α) (ascending : Bool) : List (Nat × α) :=
  sortG (fun p q => lamb ascending p.2 q.2) (fun p q => lamb_t ascending p.2 q.2) l.enum

/-- Insertion of `x` into a sorted prefix directly after every element `y`
with `cmpT y x`: the position the inner scan of `sort` selects. -/
def stInsert {α : Type} (cmpT : α → α → Bool) (x : α) : List α → List α
  | [] => [x]
  | y :: ys => if cmpT y x then y :: stInsert cmpT x ys else x :: y :: ys

/-- Straight-line insertion sort continuing from an already-sorted prefix
`acc`: the specification the relocation loop of `sort` is proved equal to. -/
def isortFrom {α : Type} (cmpT : α → α → Bool) (acc l : List α) : List α :=
  l.foldl (fun a x => stInsert cmpT x a) acc

/-- Concrete three-node container: sentinel 0, chain 0 → 1 → 2 → 3 → 0,
node address `n` storing value `n`. -/
def heap3 : Heap Nat :=
  ⟨fun n => if n = 0 then 1 else if n = 1 then 2 else if n = 2 then 3 else
      if n = 3 then 0 else n,
    fun n => if n = 0 then 3 else if n = 1 then 0 else if n = 2 then 1 else
      if n = 3 then 2 else n,
    fun n => n⟩

/-- The container `[1, 2, 3]` built on `heap3`. -/
def list3 : ListH Nat := ⟨heap3, 0, 3⟩

/-- Two concrete one-element containers in one address space: container `a`
has sentinel 0 and node 2 (value 1); container `b` has sentinel 1 and
node 3 (value 2). -/
def heapAB : Heap Nat :=
  ⟨fun n => if n = 0 then 2 else if n = 2 then 0 else if n = 1 then 3 else
      if n = 3 then 1 else n,
    fun n => if n = 0 then 2 else if n = 2 then 0 else if n = 1 then 3 else
      if n = 3 then 1 else n,
    fun n => if n = 2 then 1 else if n = 3 then 2 else 0⟩

/-- Two concrete empty containers: sentinel 0 (container `a`) and sentinel 1
(container `b`), each self-linked. -/
def heapEmptyAB : Heap Nat :=
  ⟨fun n => n, fun n => n, fun _ => 0⟩

/-- The heap produced by `a = std::move(b)` on the two empty containers of
`heapEmptyAB` (destination sentinel 0, source sentinel 1). -/
def heapMoveBug : Heap Nat :=
  (moveAssignFullH heapEmptyAB 0 1 5).getD heapEmptyAB

theorem mergeCopyS_eq {α : Type} (a b : ListS α) :
    mergeCopyS a b = { seq := a.seq ++ b.seq, sz := a.sz } := by
  rcases a with ⟨sa, za⟩
  unfold mergeCopyS
  induction b.seq generalizing sa with
  | nil => simp
  | cons x xs ih => simpa using ih (sa ++ [x])

theorem copyAssignS_eq {α : Type} (dst src : ListS α) :
    copyAssignS dst src = { seq := src.seq, sz := src.seq.length } := by
  unfold copyAssignS clearS
  have h : ∀ (xs : List α) (acc : List α) (n : Nat),
      xs.foldl push_backS ⟨acc, n⟩ = ⟨acc ++ xs, n + xs.length⟩ := by
    intro xs
    induction xs with
    | nil => intro acc n; simp
    | cons x xs ih =>
        intro acc n
        simpa [push_backS, Nat.add_comm, Nat.add_assoc, Nat.add_left_comm] using
          ih (acc ++ [x]) (n + 1)
  simpa using h src.seq [] 0

theorem stInsert_eq {α : Type} (cmpT : α → α → Bool) (x : α) (l : List α) :
    stInsert cmpT x l =
      l.takeWhile (fun y => cmpT y x) ++ x :: l.dropWhile (fun y => cmpT y x) := by
  induction l with
  | nil => rfl
  | cons y ys ih =>
      by_cases h : cmpT y x = true
      · simp [stInsert, h, ih]
      · simp [stInsert, h]

theorem stInsert_perm {α : Type} (cmpT : α → α → Bool) (x : α) (l : List α) :
    (stInsert cmpT x l).Perm (x :: l) := by
  induction l with
  | nil => exact List.Perm.refl _
  | cons y ys ih =>
      by_cases h : cmpT y x = true
      · simp only [stInsert, if_pos h]
        exact (ih.cons y).trans (List.Perm.swap x y ys)
      · simp only [stInsert, if_neg h]
        exact List.Perm.refl _

theorem stInsert_length {α : Type} (cmpT : α → α → Bool) (x : α) (l : List α) :
    (stInsert cmpT x l).length = l.length + 1 := by
  simpa using (stInsert_perm cmpT x l).length_eq

theorem mem_stInsert {α : Type} (cmpT : α → α → Bool) (x : α) (l : List α) (z : α) :
    z ∈ stInsert cmpT x l ↔ z = x ∨ z ∈ l := by
  simpa using (stInsert_perm cmpT x l).mem_iff

theorem stInsert_sorted {α : Type} {cmpT : α → α → Bool}
    (Htrans : ∀ a b c, cmpT a b = true → cmpT b c = true → cmpT a c = true)
    (Htot : ∀ a b, cmpT a b = true ∨ cmpT b a = true) (x : α) :
    ∀ l : List α, l.Pairwise (fun a b => cmpT a b = true) →
      (stInsert cmpT x l).Pairwise (fun a b => cmpT a b = true) := by
  intro l
  induction l with
  | nil => intro _; simp [stInsert]
  | cons y ys ih =>
      intro h
      rcases List.pairwise_cons.mp h with ⟨hy, hys⟩
      by_cases hc : cmpT y x = true
      · simp only [stInsert, if_pos hc]
        refine List.pairwise_cons.mpr ⟨?_, ih hys⟩
        intro z hz
        rcases (mem_stInsert cmpT x ys z).mp hz with rfl | hz
        · exact hc
        · exact hy z hz
      · simp only [stInsert, if_neg hc]
        refine List.pairwise_cons.mpr ⟨?_, h⟩
        intro z hz
        have hxy : cmpT x y = true := (Htot x y).resolve_right hc
        rcases List.mem_cons.mp hz with rfl | hz
        · exact hxy
        · exact Htrans x y z hxy (hy z hz)

theorem isortFrom_perm {α : Type} (cmpT : α → α → Bool) :
    ∀ (rest acc : List α), (isortFrom cmpT acc rest).Perm (acc ++ rest) := by
  intro rest
  induction rest with
  | nil => intro acc; simp [isortFrom]
  | cons x rest ih =>
      intro acc
      have h1 : isortFrom cmpT acc (x :: rest) = isortFrom cmpT (stInsert cmpT x acc) rest := rfl
      rw [h1]
      refine (ih (stInsert cmpT x acc)).trans ?_
      refine (((stInsert_perm cmpT x acc).append_right rest).trans ?_)
      exact List.perm_middle.symm

theorem isortFrom_sorted {α : Type} {cmpT : α → α → Bool}
    (Htrans : ∀ a b c, cmpT a b = true → cmpT b c = true → cmpT a c = true)
    (Htot : ∀ a b, cmpT a b = true ∨ cmpT b a = true) :
    ∀ (rest acc : List α), acc.Pairwise (fun a b => cmpT a b = true) →
      (isortFrom cmpT acc rest).Pairwise (fun a b => cmpT a b = true) := by
  intro rest
  induction rest with
  | nil => intro acc h; exact h
  | cons x rest ih =>
      intro acc h
      exact ih (stInsert cmpT x acc) (stInsert_sorted Htrans Htot x acc h)

theorem cmpT_dropWhile_false {α : Type} {cmpT : α → α → Bool}
    (Htrans : ∀ a b c, cmpT a b = true → cmpT b c = true → cmpT a c = true) (x : α) :
    ∀ l : List α, l.Pairwise (fun a b => cmpT a b = true) →
      ∀ z ∈ l.dropWhile (fun y => cmpT y x), cmpT z x = false := by
  intro l
  induction l with
  | nil => intro _ z hz; simp [List.dropWhile] at hz
  | cons y ys ih =>
      intro h z hz
      rcases List.pairwise_cons.mp h with ⟨hy, hys⟩
      by_cases hc : cmpT y x = true
      · simp only [List.dropWhile_cons, hc, if_true] at hz
        exact ih hys z hz
      · simp only [List.dropWhile_cons, hc, if_false] at hz
        rcases List.mem_cons.mp hz with rfl | hz
        · exact Bool.eq_false_iff.mpr hc
        · cases hb : cmpT z x
          · rfl
          · exact absurd (Htrans y z x (hy z hz) hb) hc

theorem takeWhile_getElem?_true {α : Type} (p : α → Bool) :
    ∀ (l : List α) (j : Nat), j < (l.takeWhile p).length →
      ∃ y, l[j]? = some y ∧ p y = true := by
  intro l
  induction l with
  | nil => intro j hj; simp [List.takeWhile] at hj
  | cons a l ih =>
      intro j hj
      by_cases hp : p a = true
      · rw [List.takeWhile_cons_of_pos hp] at hj
        cases j with
        | zero => exact ⟨a, by simp, hp⟩
        | succ j =>
            obtain ⟨y, hy, hpy⟩ := ih j (Nat.lt_of_succ_lt_succ hj)
            exact ⟨y, by simpa using hy, hpy⟩
      · rw [List.takeWhile_cons_of_neg hp] at hj
        simp at hj

theorem takeWhile_getElem?_false {α : Type} (p : α → Bool) :
    ∀ l : List α, (l.takeWhile p).length < l.length →
      ∃ y, l[(l.takeWhile p).length]? = some y ∧ p y = false := by
  intro l
  induction l with
  | nil => intro h; simp at h
  | cons a l ih =>
      intro h
      by_cases hp : p a = true
      · rw [List.takeWhile_cons_of_pos hp] at h ⊢
        obtain ⟨y, hy, hpy⟩ := ih (Nat.lt_of_succ_lt_succ h)
        exact ⟨y, by simpa using hy, hpy⟩
      · rw [List.takeWhile_cons_of_neg hp]
        exact ⟨a, by simp, Bool.eq_false_iff.mpr hp⟩

theorem pairwise_getElem? {α : Type} {R : α → α → Prop} {l : List α} (h : l.Pairwise R)
    {i j : Nat} {a b : α} (hij : i < j) (ha : l[i]? = some a) (hb : l[j]? = some b) :
    R a b := by
  rcases List.getElem?_eq_some.mp ha with ⟨hi, rfl⟩
  rcases List.getElem?_eq_some.mp hb with ⟨hj, rfl⟩
  exact List.pairwise_iff_getElem.mp h i j hi hj hij

theorem eraseIdx_append_cons {α : Type} (acc rest : List α) (x : α) :
    (acc ++ x :: rest).eraseIdx acc.length = acc ++ rest := by
  induction acc with
  | nil => simp
  | cons a acc ih => simpa using ih

theorem insertIdx_append_left {α : Type} (x : α) :
    ∀ (acc : List α) (j : Nat), j ≤ acc.length → ∀ rest : List α,
      (acc ++ rest).insertIdx j x = acc.insertIdx j x ++ rest := by
  intro acc
  induction acc with
  | nil =>
      intro j hj rest
      have hj0 : j = 0 := Nat.le_zero.mp (by simpa using hj)
      subst hj0
      simp
  | cons a acc ih =>
      intro j hj rest
      cases j with
      | zero => simp
      | succ j =>
          simp only [List.cons_append, List.insertIdx_succ_cons]
          rw [ih j (Nat.le_of_succ_le_succ (by simpa using hj)) rest]

theorem insertIdx_length_append {α : Type} (x : α) :
    ∀ (l₁ l₂ : List α), (l₁ ++ l₂).insertIdx l₁.length x = l₁ ++ x :: l₂ := by
  intro l₁
  induction l₁ with
  | nil => intro l₂; simp
  | cons a l₁ ih => intro l₂; simpa using ih l₂

theorem stInsert_eq_append_of_all {α : Type} (cmpT : α → α → Bool) (x : α) (acc : List α)
    (hall : ∀ y ∈ acc, cmpT y x = true) :
    stInsert cmpT x acc = acc ++ [x] := by
  rw [stInsert_eq, List.takeWhile_eq_self_iff.mpr hall, List.dropWhile_eq_nil_iff.mpr hall]

theorem all_of_twLen_eq {α : Type} (p : α → Bool) (l : List α)
    (h : (l.takeWhile p).length = l.length) : ∀ y ∈ l, p y = true := by
  have hsub : List.Sublist (l.takeWhile p) l := List.takeWhile_sublist p
  exact List.takeWhile_eq_self_iff.mp (hsub.eq_of_length h)

theorem condAt_true_iff {α : Type} {cmp cmpT : α → α → Bool}
    (Hrel : ∀ a b, cmp a b = !cmpT b a)
    (Htrans : ∀ a b c, cmpT a b = true → cmpT b c = true → cmpT a c = true)
    (x : α) (acc rest : List α)
    (hs : acc.Pairwise (fun a b => cmpT a b = true))
    (j : Nat) (hj : j < acc.length) :
    (condAt cmp cmpT (acc ++ x :: rest) x j = true ↔
      j = (acc.takeWhile (fun y => cmpT y x)).length) := by
  obtain ⟨aj, haj⟩ : ∃ a, acc[j]? = some a := ⟨acc[j], List.getElem?_eq_getElem hj⟩
  have hl : (acc ++ x :: rest)[j]? = some aj := by
    rw [List.getElem?_append_left hj, haj]
  have hunf : condAt cmp cmpT (acc ++ x :: rest) x j =
      (cmp x aj && (j == 0 ||
        match (acc ++ x :: rest)[j - 1]? with
        | none => false
        | some z => cmpT z x)) := by
    simp only [condAt, hl]
  constructor
  · intro hc
    rw [hunf, Bool.and_eq_true] at hc
    rcases hc with ⟨h1, h2⟩
    have hnotj : cmpT aj x = false := by
      rw [Hrel x aj] at h1
      cases hb : cmpT aj x
      · rfl
      · rw [hb] at h1; exact absurd h1 (by simp)
    have hge : (acc.takeWhile (fun y => cmpT y x)).length ≤ j := by
      by_contra hlt
      push_neg at hlt
      obtain ⟨y, hy, hpy⟩ := takeWhile_getElem?_true (fun y => cmpT y x) acc j hlt
      rw [haj] at hy
      cases hy
      exact absurd hpy (by simp [hnotj])
    have hle : j ≤ (acc.takeWhile (fun y => cmpT y x)).length := by
      by_contra hgt
      push_neg at hgt
      have hjpos : 0 < j := Nat.lt_of_le_of_lt (Nat.zero_le _) hgt
      have hb0 : (j == 0) = false := by
        simp [Nat.pos_iff_ne_zero.mp hjpos]
      rw [hb0, Bool.false_or] at h2
      have hj1lt : j - 1 < acc.length := Nat.lt_of_le_of_lt (Nat.sub_le j 1) hj
      obtain ⟨b, hbj⟩ : ∃ b, acc[j - 1]? = some b := ⟨_, List.getElem?_eq_getElem hj1lt⟩
      have hlb : (acc ++ x :: rest)[j - 1]? = some b := by
        rw [List.getElem?_append_left hj1lt, hbj]
      rw [hlb] at h2
      have htwlt : (acc.takeWhile (fun y => cmpT y x)).length < acc.length :=
        Nat.lt_trans hgt hj
      obtain ⟨c, hc0, hpc⟩ := takeWhile_getElem?_false (fun y => cmpT y x) acc htwlt
      have hle1 : (acc.takeWhile (fun y => cmpT y x)).length ≤ j - 1 :=
        Nat.le_sub_one_of_lt hgt
      rcases Nat.lt_or_eq_of_le hle1 with hlt1 | heq1
      · have hcb : cmpT c b = true := pairwise_getElem? hs hlt1 hc0 hbj
        exact absurd (Htrans c b x hcb h2) (by simp [hpc])
      · rw [heq1, hbj] at hc0
        cases hc0
        exact absurd h2 (by simp [hpc])
    exact Nat.le_antisymm hle hge
  · intro hjeq
    subst hjeq
    obtain ⟨c, hc0, hpc⟩ := takeWhile_getElem?_false (fun y => cmpT y x) acc hj
    rw [haj] at hc0
    cases hc0
    rw [hunf, Bool.and_eq_true]
    refine ⟨?_, ?_⟩
    · rw [Hrel x aj, hpc]
      rfl
    · cases htw : (acc.takeWhile (fun y => cmpT y x)).length with
      | zero => simp
      | succ k =>
          have hklt : k < (acc.takeWhile (fun y => cmpT y x)).length := by
            rw [htw]; exact Nat.lt_succ_self k
          obtain ⟨y, hy, hpy⟩ := takeWhile_getElem?_true (fun y => cmpT y x) acc k hklt
          have hkacc : k < acc.length := Nat.lt_trans hklt hj
          have hly : (acc ++ x :: rest)[k]? = some y := by
            rw [List.getElem?_append_left hkacc, hy]
          simp only [Nat.add_sub_cancel]
          rw [hly]
          simp [hpy]

theorem scanBack_spec {α : Type} (cmp cmpT : α → α → Bool) (l : List α) (x : α) (j0 : Nat) :
    ∀ J : Nat, (∀ j, j ≤ J → (condAt cmp cmpT l x j = true ↔ j = j0)) →
      scanBack cmp cmpT l x J = if j0 ≤ J then some j0 else none := by
  intro J
  induction J with
  | zero =>
      intro h
      show (if condAt cmp cmpT l x 0 = true then some 0 else none) = _
      by_cases h0 : condAt cmp cmpT l x 0 = true
      · have h00 : (0 : Nat) = j0 := (h 0 le_rfl).mp h0
        rw [if_pos h0, if_pos (by omega), ← h00]
      · have hne : j0 ≠ 0 := fun he => h0 ((h 0 le_rfl).mpr he.symm)
        rw [if_neg h0, if_neg (by omega)]
  | succ J ih =>
      intro h
      show (if condAt cmp cmpT l x (J + 1) = true then some (J + 1)
        else scanBack cmp cmpT l x J) = _
      by_cases hc : condAt cmp cmpT l x (J + 1) = true
      · have heq := (h (J + 1) le_rfl).mp hc
        rw [if_pos hc, if_pos (by omega), ← heq]
      · have hne : j0 ≠ J + 1 := fun he => hc ((h (J + 1) le_rfl).mpr he.symm)
        rw [if_neg hc, ih (fun j hj => h j (Nat.le_succ_of_le hj))]
        by_cases hle : j0 ≤ J
        · rw [if_pos hle, if_pos (Nat.le_succ_of_le hle)]
        · rw [if_neg hle, if_neg (by omega)]

theorem relocate_stInsert {α : Type} (cmpT : α → α → Bool) (x : α) (acc rest : List α)
    (hj0 : (acc.takeWhile (fun y => cmpT y x)).length < acc.length) :
    relocate (acc ++ x :: rest) acc.length (acc.takeWhile (fun y => cmpT y x)).length =
      stInsert cmpT x acc ++ rest := by
  have hx : (acc ++ x :: rest)[acc.length]? = some x := by
    rw [List.getElem?_append_right le_rfl]
    simp
  simp only [relocate, hx]
  rw [eraseIdx_append_cons]
  rw [insertIdx_append_left x acc _ (le_of_lt hj0) rest]
  rw [stInsert_eq]
  congr 1
  have h2 := insertIdx_length_append x (acc.takeWhile (fun y => cmpT y x))
    (acc.dropWhile (fun y => cmpT y x))
  rw [List.takeWhile_append_dropWhile] at h2
  exact h2

theorem sortLoop_eq {α : Type} {cmp cmpT : α → α → Bool}
    (Hrel : ∀ a b, cmp a b = !cmpT b a)
    (Htrans : ∀ a b c, cmpT a b = true → cmpT b c = true → cmpT a c = true)
    (Htot : ∀ a b, cmpT a b = true ∨ cmpT b a = true) :
    ∀ (rest acc : List α) (fuel : Nat), acc ≠ [] →
      acc.Pairwise (fun a b => cmpT a b = true) → rest.length ≤ fuel →
      sortLoop cmp cmpT (acc ++ rest) acc.length fuel = isortFrom cmpT acc rest := by
  intro rest
  induction rest with
  | nil =>
      intro acc fuel hne hs hf
      cases fuel with
      | zero => simp [sortLoop, isortFrom]
      | succ f =>
          have h0 : (acc ++ ([] : List α))[acc.length]? = none := by
            apply List.getElem?_eq_none
            simp
          simp [sortLoop, h0, isortFrom]
  | cons x rest ih =>
      intro acc fuel hne hs hf
      cases fuel with
      | zero => exact absurd hf (by simp)
      | succ f =>
          have hx : (acc ++ x :: rest)[acc.length]? = some x := by
            rw [List.getElem?_append_right le_rfl]
            simp
          have hlenpos : 0 < acc.length := List.length_pos.mpr hne
          have hcond : ∀ j, j ≤ acc.length - 1 →
              (condAt cmp cmpT (acc ++ x :: rest) x j = true ↔
                j = (acc.takeWhile (fun y => cmpT y x)).length) := by
            intro j hj
            exact condAt_true_iff Hrel Htrans x acc rest hs j (by omega)
          have hscan := scanBack_spec cmp cmpT (acc ++ x :: rest) x
            ((acc.takeWhile (fun y => cmpT y x)).length) (acc.length - 1) hcond
          have hfle : rest.length ≤ f := by simpa using hf
          by_cases hcase : (acc.takeWhile (fun y => cmpT y x)).length ≤ acc.length - 1
          · rw [if_pos hcase] at hscan
            have hj0lt : (acc.takeWhile (fun y => cmpT y x)).length < acc.length := by omega
            have hreloc := relocate_stInsert cmpT x acc rest hj0lt
            have hlen : (stInsert cmpT x acc).length = acc.length + 1 :=
              stInsert_length cmpT x acc
            have hstep : sortLoop cmp cmpT (acc ++ x :: rest) acc.length (f + 1) =
                sortLoop cmp cmpT (stInsert cmpT x acc ++ rest)
                  (stInsert cmpT x acc).length f := by
              simp only [sortLoop, hx, hscan, hreloc, hlen]
            rw [hstep]
            rw [ih (stInsert cmpT x acc) f (by simp [← List.length_pos, hlen])
              (stInsert_sorted Htrans Htot x acc hs) hfle]
            rfl
          · rw [if_neg hcase] at hscan
            have hj0 : (acc.takeWhile (fun y => cmpT y x)).length = acc.length := by
              have hle := (List.takeWhile_sublist (fun y => cmpT y x) (l := acc)).length_le
              omega
            have hall := all_of_twLen_eq (fun y => cmpT y x) acc hj0
            have hsorted2 : (acc ++ [x]).Pairwise (fun a b => cmpT a b = true) := by
              refine List.pairwise_append.mpr ⟨hs, by simp, ?_⟩
              intro a ha b hb
              rw [List.mem_singleton] at hb
              subst hb
              exact hall a ha
            have hre : acc ++ x :: rest = (acc ++ [x]) ++ rest := by simp
            have hlen2 : (acc ++ [x]).length = acc.length + 1 := by simp
            have hstep : sortLoop cmp cmpT (acc ++ x :: rest) acc.length (f + 1) =
                sortLoop cmp cmpT ((acc ++ [x]) ++ rest) (acc ++ [x]).length f := by
              simp only [sortLoop, hx, hscan, hlen2]
              rw [← hre]
            rw [hstep]
            rw [ih (acc ++ [x]) f (by simp) hsorted2 hfle]
            show isortFrom cmpT (acc ++ [x]) rest =
              isortFrom cmpT (stInsert cmpT x acc) rest
            rw [stInsert_eq_append_of_all cmpT x acc hall]

theorem sortG_eq_isortFrom {α : Type} {cmp cmpT : α → α → Bool}
    (Hrel : ∀ a b, cmp a b = !cmpT b a)
    (Htrans : ∀ a b c, cmpT a b = true → cmpT b c = true → cmpT a c = true)
    (Htot : ∀ a b, cmpT a b = true ∨ cmpT b a = true) (l : List α) :
    sortG cmp cmpT l = isortFrom cmpT [] l := by
  match l with
  | [] => simp [sortG, isortFrom]
  | [a] => simp [sortG, isortFrom, stInsert]
  | a :: b :: t =>
      have hlen : ¬((a :: b :: t).length < 2) := by
        simp [Nat.succ_lt_succ_iff]
      have h1 := sortLoop_eq Hrel Htrans Htot (b :: t) [a] ((a :: b :: t).length)
        (by simp) (by simp) (by simp)
      unfold sortG
      rw [if_neg hlen]
      simpa using h1

theorem updFn_same (f : Nat → Nat) (i v : Nat) : updFn f i v i = v := by
  simp [updFn]

theorem updFn_other (f : Nat → Nat) (i v j : Nat) (h : j ≠ i) : updFn f i v j = f j := by
  simp [updFn, h]

theorem DChain_append {α : Type} {h : Heap α} {a b c : Nat} {xs ys : List Nat}
    (h1 : DChain h a xs b) (h2 : DChain h b ys c) : DChain h a (xs ++ b :: ys) c := by
  induction h1 generalizing ys with
  | nil hn hp => exact DChain.cons hn hp h2
  | cons hn hp _ ih => exact DChain.cons hn hp (ih h2)

theorem DChain_split {α : Type} {h : Heap α} :
    ∀ (xs : List Nat) {a c : Nat} (y : Nat) (ys : List Nat),
      DChain h a (xs ++ y :: ys) c → DChain h a xs y ∧ DChain h y ys c := by
  intro xs
  induction xs with
  | nil =>
      intro a c y ys hch
      cases hch with
      | cons hn hp h2 => exact ⟨DChain.nil hn hp, h2⟩
  | cons x xs ih =>
      intro a c y ys hch
      cases hch with
      | cons hn hp h2 =>
          rcases ih y ys h2 with ⟨h3, h4⟩
          exact ⟨DChain.cons hn hp h3, h4⟩

theorem DChain_congr {α : Type} {h1 h2 : Heap α} :
    ∀ (xs : List Nat) {a c : Nat},
      (∀ w ∈ a :: xs, h2.next w = h1.next w) →
      (∀ w ∈ xs ++ [c], h2.prev w = h1.prev w) →
      DChain h1 a xs c → DChain h2 a xs c := by
  intro xs
  induction xs with
  | nil =>
      intro a c hn hp hch
      cases hch with
      | nil h1n h1p =>
          exact DChain.nil ((hn a (by simp)).trans h1n) ((hp c (by simp)).trans h1p)
  | cons x xs ih =>
      intro a c hn hp hch
      cases hch with
      | cons h1n h1p hrest =>
          refine DChain.cons ((hn a (by simp)).trans h1n) ((hp x (by simp)).trans h1p) ?_
          refine ih (fun w hw => hn w (List.mem_cons_of_mem a hw))
            (fun w hw => hp w ?_) hrest
          rw [List.cons_append]
          exact List.mem_cons_of_mem x hw

theorem DChain_prev_last {α : Type} {h : Heap α} {a c : Nat} {xs : List Nat}
    (hch : DChain h a xs c) : h.prev c ∈ a :: xs := by
  induction hch with
  | nil hn hp => rw [hp]; exact List.mem_cons_self _ _
  | cons hn hp _ ih => exact List.mem_cons_of_mem _ ih

theorem iterNodes_at_sent {α : Type} (h : Heap α) (s : Nat) (fuel : Nat) :
    iterNodes h s s fuel = some [] := by
  cases fuel <;> simp [iterNodes]

theorem iterNodes_of_chain {α : Type} {h : Heap α} {s : Nat} :
    ∀ (xs : List Nat) (u : Nat), u ≠ s → s ∉ xs → DChain h u xs s →
      ∀ fuel, xs.length + 1 ≤ fuel → iterNodes h s u fuel = some (u :: xs) := by
  intro xs
  induction xs with
  | nil =>
      intro u hu _ hch fuel hf
      cases hch with
      | nil hn _ =>
          cases fuel with
          | zero => exact absurd hf (by omega)
          | succ f =>
              show (if u = s then some [] else
                (iterNodes h s (h.next u) f).map (u :: ·)) = some [u]
              rw [if_neg hu, hn, iterNodes_at_sent]
              rfl
  | cons x xs ih =>
      intro u hu hs hch fuel hf
      cases hch with
      | cons hn _ hrest =>
          cases fuel with
          | zero => exact absurd hf (by omega)
          | succ f =>
              show (if u = s then some [] else
                (iterNodes h s (h.next u) f).map (u :: ·)) = some (u :: x :: xs)
              rw [if_neg hu, hn]
              rw [ih x (fun he => hs (by simp [he])) (fun hm => hs (by simp [hm]))
                hrest f (by simpa using hf)]
              rfl

theorem iterFwd_of_rep {α : Type} {h : Heap α} {s : Nat} {ids : List Nat}
    (hrep : Rep h s ids) :
    ∀ fuel, ids.length ≤ fuel → iterFwd h s fuel = some ids := by
  rcases hrep with ⟨hch, hnd⟩
  intro fuel hf
  cases hch with
  | nil hn _ =>
      unfold iterFwd
      rw [hn]
      exact iterNodes_at_sent h s fuel
  | cons hn hp hrest =>
      unfold iterFwd
      rw [hn]
      rcases List.nodup_cons.mp hnd with ⟨hsmem, _⟩
      rw [List.mem_cons] at hsmem
      push_neg at hsmem
      exact iterNodes_of_chain _ _ (fun he => hsmem.1 he.symm) hsmem.2 hrest fuel
        (by simpa using hf)

theorem DChain_flip {α : Type} {h : Heap α} :
    ∀ {u v : Nat} {xs : List Nat}, DChain h u xs v →
      DChain (flipH h) v xs.reverse u := by
  intro u v xs hch
  induction hch with
  | nil hn hp => exact DChain.nil hp hn
  | cons hn hp _ ih =>
      have hstep : DChain (flipH h) _ [] _ := DChain.nil hp hn
      have hall := DChain_append ih hstep
      simpa using hall

theorem Rep_flip {α : Type} {h : Heap α} {s : Nat} {ids : List Nat}
    (hrep : Rep h s ids) : Rep (flipH h) s ids.reverse := by
  rcases hrep with ⟨hch, hnd⟩
  refine ⟨DChain_flip hch, ?_⟩
  rcases List.nodup_cons.mp hnd with ⟨hsmem, hnd2⟩
  exact List.nodup_cons.mpr ⟨by simpa using hsmem, by simpa using hnd2⟩

theorem iterBwd_of_rep {α : Type} {h : Heap α} {s : Nat} {ids : List Nat}
    (hrep : Rep h s ids) :
    ∀ fuel, ids.length ≤ fuel → iterBwd h s fuel = some ids.reverse := by
  intro fuel hf
  exact iterFwd_of_rep (Rep_flip hrep) fuel (by simpa using hf)

theorem swapAt_next_same {α : Type} (h : Heap α) (n : Nat) :
    (swapAt h n).next n = h.prev n :=
  updFn_same _ _ _

theorem swapAt_prev_same {α : Type} (h : Heap α) (n : Nat) :
    (swapAt h n).prev n = h.next n :=
  updFn_same _ _ _

theorem swapAt_next_other {α : Type} (h : Heap α) (n w : Nat) (hw : w ≠ n) :
    (swapAt h n).next w = h.next w :=
  updFn_other _ _ _ _ hw

theorem swapAt_prev_other {α : Type} (h : Heap α) (n w : Nat) (hw : w ≠ n) :
    (swapAt h n).prev w = h.prev w :=
  updFn_other _ _ _ _ hw

theorem swapAt_data {α : Type} (h : Heap α) (n : Nat) :
    (swapAt h n).data = h.data := rfl

theorem DChain_swapAt_outside {α : Type} {h : Heap α} {u v : Nat} {xs : List Nat}
    (n : Nat) (hn1 : n ∉ u :: xs) (hn2 : n ∉ xs ++ [v]) (hch : DChain h u xs v) :
    DChain (swapAt h n) u xs v := by
  refine DChain_congr xs (fun w hw => ?_) (fun w hw => ?_) hch
  · exact swapAt_next_other h n w (fun he => hn1 (he ▸ hw))
  · exact swapAt_prev_other h n w (fun he => hn2 (he ▸ hw))

theorem revLoop_at_sent {α : Type} (s : Nat) (h : Heap α) (fuel : Nat) :
    revLoop s h s fuel = h := by
  cases fuel <;> simp [revLoop]

theorem revLoop_eq_foldl {α : Type} {s : Nat} :
    ∀ (xs : List Nat) (u : Nat) (h : Heap α),
      DChain h u xs s → u ≠ s → s ∉ xs → (u :: xs).Nodup →
      ∀ fuel, xs.length + 1 ≤ fuel →
      revLoop s h u fuel = (u :: xs).foldl swapAt h := by
  intro xs
  induction xs with
  | nil =>
      intro u h hch hu _ _ fuel hf
      cases hch with
      | nil hn _ =>
          cases fuel with
          | zero => exact absurd hf (by omega)
          | succ f =>
              show (if u = s then h else
                revLoop s (swapAt h u) ((swapAt h u).prev u) f) = _
              rw [if_neg hu, swapAt_prev_same, hn, revLoop_at_sent]
              rfl
  | cons x xs ih =>
      intro u h hch hu hs hnd fuel hf
      cases hch with
      | cons hn hp hrest =>
          cases fuel with
          | zero => exact absurd hf (by omega)
          | succ f =>
              show (if u = s then h else
                revLoop s (swapAt h u) ((swapAt h u).prev u) f) = _
              rw [if_neg hu, swapAt_prev_same, hn]
              rcases List.nodup_cons.mp hnd with ⟨humem, hnd2⟩
              rw [List.mem_cons] at humem
              push_neg at humem
              have hch2 : DChain (swapAt h u) x xs s := by
                refine DChain_swapAt_outside u ?_ ?_ hrest
                · intro hm
                  rcases List.mem_cons.mp hm with he | hm2
                  · exact humem.1 he
                  · exact humem.2 hm2
                · intro hm
                  rcases List.mem_append.mp hm with hm2 | hm2
                  · exact humem.2 hm2
                  · rw [List.mem_singleton] at hm2
                    exact hu hm2
              rw [ih x (swapAt h u) hch2 (fun he => hs (by simp [he]))
                (fun hm => hs (by simp [hm])) hnd2 f (by simpa using hf)]
              rfl

theorem foldl_swapAt_data {α : Type} :
    ∀ (C : List Nat) (h : Heap α), (C.foldl swapAt h).data = h.data := by
  intro C
  induction C with
  | nil => intro h; rfl
  | cons c C ih => intro h; exact (ih (swapAt h c)).trans rfl

theorem foldl_swapAt_next {α : Type} :
    ∀ (C : List Nat) (h : Heap α) (w : Nat), C.Nodup →
      (C.foldl swapAt h).next w = if w ∈ C then h.prev w else h.next w := by
  intro C
  induction C with
  | nil => intro h w _; simp
  | cons c C ih =>
      intro h w hnd
      rcases List.nodup_cons.mp hnd with ⟨hcmem, hnd2⟩
      show (C.foldl swapAt (swapAt h c)).next w = _
      rw [ih (swapAt h c) w hnd2]
      by_cases hw : w ∈ C
      · rw [if_pos hw, if_pos (List.mem_cons_of_mem c hw)]
        exact swapAt_prev_other h c w (fun he => hcmem (he ▸ hw))
      · by_cases hwc : w = c
        · subst hwc
          rw [if_neg hw, if_pos (List.mem_cons_self w C)]
          exact swapAt_next_same h w
        · rw [if_neg hw, if_neg (by simp [hwc, hw])]
          exact swapAt_next_other h c w hwc

theorem foldl_swapAt_prev {α : Type} :
    ∀ (C : List Nat) (h : Heap α) (w : Nat), C.Nodup →
      (C.foldl swapAt h).prev w = if w ∈ C then h.next w else h.prev w := by
  intro C
  induction C with
  | nil => intro h w _; simp
  | cons c C ih =>
      intro h w hnd
      rcases List.nodup_cons.mp hnd with ⟨hcmem, hnd2⟩
      show (C.foldl swapAt (swapAt h c)).prev w = _
      rw [ih (swapAt h c) w hnd2]
      by_cases hw : w ∈ C
      · rw [if_pos hw, if_pos (List.mem_cons_of_mem c hw)]
        exact swapAt_next_other h c w (fun he => hcmem (he ▸ hw))
      · by_cases hwc : w = c
        · subst hwc
          rw [if_neg hw, if_pos (List.mem_cons_self w C)]
          exact swapAt_prev_same h w
        · rw [if_neg hw, if_neg (by simp [hwc, hw])]
          exact swapAt_prev_other h c w hwc

theorem reverseH_eq_foldl {α : Type} {h : Heap α} {s : Nat} {ids : List Nat}
    (hrep : Rep h s ids) (fuel : Nat) (hf : ids.length + 1 ≤ fuel) :
    reverseH h s fuel = (ids ++ [s]).foldl swapAt h := by
  rcases hrep with ⟨hch, hnd⟩
  rw [List.foldl_append]
  cases hch with
  | nil hn _ =>
      unfold reverseH
      rw [hn, revLoop_at_sent]
      rfl
  | cons hn hp hrest =>
      unfold reverseH
      rw [hn]
      rcases List.nodup_cons.mp hnd with ⟨hsmem, hnd2⟩
      rw [List.mem_cons] at hsmem
      push_neg at hsmem
      rw [revLoop_eq_foldl _ _ h hrest (fun he => hsmem.1 he.symm) hsmem.2 hnd2
        fuel (by simp only [List.length_cons] at hf; omega)]
      rfl

theorem reverseH_rep {α : Type} {h : Heap α} {s : Nat} {ids : List Nat}
    (hrep : Rep h s ids) (fuel : Nat) (hf : ids.length + 1 ≤ fuel) :
    Rep (reverseH h s fuel) s ids.reverse ∧ (reverseH h s fuel).data = h.data := by
  have hnd := hrep.2
  rcases List.nodup_cons.mp hnd with ⟨hsmem, hnd2⟩
  have hndring : (ids ++ [s]).Nodup := by
    rw [List.nodup_append]
    refine ⟨hnd2, by simp, ?_⟩
    intro a ha
    rw [List.mem_singleton]
    intro he
    exact hsmem (he ▸ ha)
  have heq := reverseH_eq_foldl hrep fuel hf
  have hmemring : ∀ w, w ∈ ids ++ [s] ↔ w ∈ s :: ids.reverse := by
    intro w
    simp [List.mem_append, List.mem_reverse, or_comm]
  have hflip := Rep_flip hrep
  constructor
  · refine ⟨?_, hflip.2⟩
    rw [heq]
    refine DChain_congr ids.reverse (fun w hw => ?_) (fun w hw => ?_) hflip.1
    · rw [foldl_swapAt_next _ h w hndring, if_pos ((hmemring w).mpr hw)]
      rfl
    · rw [foldl_swapAt_prev _ h w hndring, if_pos ((hmemring w).mpr ?_)]
      · rfl
      · rcases List.mem_append.mp hw with hw2 | hw2
        · exact List.mem_cons_of_mem s hw2
        · rw [List.mem_singleton] at hw2
          exact hw2 ▸ List.mem_cons_self s ids.reverse
  · rw [heq]
    exact foldl_swapAt_data _ h

/-- Claim C9: `reverse()` reverses the element order in place: afterwards the
container still satisfies the representation invariant with the node order
reversed (so no node was created or destroyed, only links of existing nodes
were rewritten), forward iteration yields the old value sequence reversed,
`sz_` is untouched, and applying `reverse()` twice restores the original
iteration order. -/
theorem reverse_correct {α : Type} (L : ListH α) (ids : List Nat) (fuel : Nat)
    (hrep : RepL L ids) (hf : ids.length + 1 ≤ fuel) :
    RepL (reverseL L fuel) ids.reverse ∧
    iterVals (reverseL L fuel).heap L.sent fuel = some ((ids.map L.heap.data).reverse) ∧
    (reverseL L fuel).sz = L.sz ∧
    iterVals (reverseL (reverseL L fuel) fuel).heap L.sent fuel =
      some (ids.map L.heap.data) := by
  rcases hrep with ⟨hrep1, hsz⟩
  rcases reverseH_rep hrep1 fuel hf with ⟨hrep2, hdata2⟩
  have hf2 : ids.reverse.length + 1 ≤ fuel := by simpa using hf
  rcases reverseH_rep hrep2 fuel hf2 with ⟨hrep3, hdata3⟩
  rw [List.reverse_reverse] at hrep3
  refine ⟨⟨hrep2, by simp [reverseL, hsz]⟩, ?_, rfl, ?_⟩
  · unfold iterVals
    rw [show (reverseL L fuel).heap = reverseH L.heap L.sent fuel from rfl]
    rw [iterFwd_of_rep hrep2 fuel (by omega)]
    rw [hdata2]
    simp
  · unfold iterVals
    rw [show (reverseL (reverseL L fuel) fuel).heap =
      reverseH (reverseH L.heap L.sent fuel) L.sent fuel from rfl]
    rw [iterFwd_of_rep hrep3 fuel (by omega)]
    rw [hdata3, hdata2]
    rfl

theorem eraseH_next_fn {α : Type} (h : Heap α) (n : Nat) :
    (eraseH h n).next = updFn h.next (h.prev n) (h.next n) := rfl

theorem eraseH_prev_fn {α : Type} (h : Heap α) (n : Nat) :
    (eraseH h n).prev = updFn h.prev (h.next n) (h.prev n) := by
  show updFn h.prev (updFn h.next (h.prev n) (h.next n) n) (h.prev n) = _
  have harg : updFn h.next (h.prev n) (h.next n) n = h.next n := by
    unfold updFn
    split <;> rfl
  rw [harg]

theorem eraseH_data {α : Type} (h : Heap α) (n : Nat) :
    (eraseH h n).data = h.data := rfl

theorem eraseH_next_at_L {α : Type} (h : Heap α) (n : Nat) :
    (eraseH h n).next (h.prev n) = h.next n := by
  rw [eraseH_next_fn]; exact updFn_same _ _ _

theorem eraseH_prev_at_F {α : Type} (h : Heap α) (n : Nat) :
    (eraseH h n).prev (h.next n) = h.prev n := by
  rw [eraseH_prev_fn]; exact updFn_same _ _ _

theorem eraseH_next_other {α : Type} (h : Heap α) (n w : Nat) (hw : w ≠ h.prev n) :
    (eraseH h n).next w = h.next w := by
  rw [eraseH_next_fn]; exact updFn_other _ _ _ _ hw

theorem eraseH_prev_other {α : Type} (h : Heap α) (n w : Nat) (hw : w ≠ h.next n) :
    (eraseH h n).prev w = h.prev w := by
  rw [eraseH_prev_fn]; exact updFn_other _ _ _ _ hw

theorem eraseH_rep {α : Type} {h : Heap α} {s n : Nat} {p q : List Nat}
    (hrep : Rep h s (p ++ n :: q)) : Rep (eraseH h n) s (p ++ q) := by
  rcases hrep with ⟨hch, hnd⟩
  rcases DChain_split p n q hch with ⟨hchp, hchq⟩
  have hndsub : (s :: (p ++ q)).Nodup :=
    List.Nodup.sublist
      (List.Sublist.cons₂ s ((List.sublist_cons_self n q).append_left p)) hnd
  rcases List.nodup_cons.mp hnd with ⟨hsmem, hndpq⟩
  have hsp : s ∉ p := fun hm => hsmem (List.mem_append.mpr (Or.inl hm))
  have hsnq : s ∉ n :: q := fun hm => hsmem (List.mem_append.mpr (Or.inr hm))
  rcases List.nodup_append.mp hndpq with ⟨hndp, hndnq, hdisj⟩
  rcases List.nodup_cons.mp hndnq with ⟨hnmemq, hndq⟩
  refine ⟨?_, hndsub⟩
  cases hchq with
  | nil hnF hpS =>
      rw [List.append_nil]
      rcases List.eq_nil_or_concat p with rfl | ⟨p2, z, hpz⟩
      · cases hchp with
        | nil hnL hpn =>
            refine DChain.nil ?_ ?_
            · have h1 : (eraseH h n).next s = h.next n := by
                rw [← hpn]; exact eraseH_next_at_L h n
              rw [h1, hnF]
            · have h1 : (eraseH h n).prev s = h.prev n := by
                rw [← hnF]; exact eraseH_prev_at_F h n
              rw [h1, hpn]
      · rw [List.concat_eq_append] at hpz
        subst hpz
        rcases DChain_split p2 z [] hchp with ⟨hchp2, hz⟩
        cases hz with
        | nil hnz hpn =>
            rcases List.nodup_append.mp hndp with ⟨hndp2, _, hdisjz⟩
            have hzs : z ≠ s := fun he => hsp (by simp [he])
            have hz2 : DChain (eraseH h n) z [] s := by
              refine DChain.nil ?_ ?_
              · have h1 : (eraseH h n).next z = h.next n := by
                  rw [← hpn]; exact eraseH_next_at_L h n
                rw [h1, hnF]
              · have h1 : (eraseH h n).prev s = h.prev n := by
                  rw [← hnF]; exact eraseH_prev_at_F h n
                rw [h1, hpn]
            have hp2 : DChain (eraseH h n) s p2 z := by
              refine DChain_congr p2 (fun w hw => ?_) (fun w hw => ?_) hchp2
              · refine eraseH_next_other h n w ?_
                rw [hpn]
                rcases List.mem_cons.mp hw with rfl | hw2
                · exact fun he => hzs he.symm
                · exact fun he => (List.disjoint_left.mp hdisjz hw2) (by simp [he])
              · refine eraseH_prev_other h n w ?_
                rw [hnF]
                intro he
                exact hsp (he ▸ hw)
            exact DChain_append hp2 hz2
  | cons hnF hpy hq2 =>
      rename_i y q2
      have hLmem : h.prev n ∈ s :: p := DChain_prev_last hchp
      have hLnotq : ∀ w ∈ y :: q2, w ≠ h.prev n := by
        intro w hw he
        rcases List.mem_cons.mp hLmem with hLs | hLp
        · have hws : s ∈ y :: q2 := by rw [← hLs, ← he]; exact hw
          exact hsnq (List.mem_cons_of_mem n hws)
        · have hwn : h.prev n ∈ n :: y :: q2 := by
            rw [← he]; exact List.mem_cons_of_mem n hw
          exact (List.disjoint_left.mp hdisj hLp) hwn
      have hynotq : ∀ w ∈ q2 ++ [s], w ≠ y := by
        intro w hw he
        rcases List.mem_append.mp hw with hw2 | hw2
        · rcases List.nodup_cons.mp hndq with ⟨hyq2, _⟩
          exact hyq2 (he ▸ hw2)
        · rw [List.mem_singleton] at hw2
          subst hw2
          exact hsnq (by simp [he])
      have hqside : DChain (eraseH h n) y q2 s := by
        refine DChain_congr q2 (fun w hw => ?_) (fun w hw => ?_) hq2
        · exact eraseH_next_other h n w (hLnotq w hw)
        · refine eraseH_prev_other h n w ?_
          rw [hnF]
          exact hynotq w hw
      have hpside : DChain (eraseH h n) s p y := by
        rcases List.eq_nil_or_concat p with rfl | ⟨p2, z, hpz⟩
        · cases hchp with
          | nil hnL hpn =>
              refine DChain.nil ?_ ?_
              · have h1 : (eraseH h n).next s = h.next n := by
                  rw [← hpn]; exact eraseH_next_at_L h n
                rw [h1, hnF]
              · have h1 : (eraseH h n).prev y = h.prev n := by
                  rw [← hnF]; exact eraseH_prev_at_F h n
                rw [h1, hpn]
        · rw [List.concat_eq_append] at hpz
          subst hpz
          rcases DChain_split p2 z [] hchp with ⟨hchp2, hz⟩
          cases hz with
          | nil hnz hpn =>
              rcases List.nodup_append.mp hndp with ⟨hndp2, _, hdisjz⟩
              have hzs : z ≠ s := fun he => hsp (by simp [he])
              have hz2 : DChain (eraseH h n) z [] y := by
                refine DChain.nil ?_ ?_
                · have h1 : (eraseH h n).next z = h.next n := by
                    rw [← hpn]; exact eraseH_next_at_L h n
                  rw [h1, hnF]
                · have h1 : (eraseH h n).prev y = h.prev n := by
                    rw [← hnF]; exact eraseH_prev_at_F h n
                  rw [h1, hpn]
              have hp2 : DChain (eraseH h n) s p2 z := by
                refine DChain_congr p2 (fun w hw => ?_) (fun w hw => ?_) hchp2
                · refine eraseH_next_other h n w ?_
                  rw [hpn]
                  rcases List.mem_cons.mp hw with rfl | hw2
                  · exact fun he => hzs he.symm
                  · exact fun he => (List.disjoint_left.mp hdisjz hw2) (by simp [he])
                · refine eraseH_prev_other h n w ?_
                  rw [hnF]
                  intro he
                  refine (List.disjoint_left.mp hdisj hw) ?_
                  rw [he]
                  exact List.mem_cons_of_mem n (List.mem_cons_self y q2)
              exact DChain_append hp2 hz2
      exact DChain_append hpside hqside

/-- Claim C10 (amended): erasing the iterator at a real node `n` removes
exactly that element, leaves the remaining elements in their original
relative order, and decrements `sz_` by one; however `erase` returns `void`
and never advances the passed iterator, so the position handed back to the
caller is still the erased (destroyed) node `n`, which is no longer on the
chain. -/
theorem erase_correct {α : Type} (L : ListH α) (p q : List Nat) (n : Nat) (fuel : Nat)
    (hrep : RepL L (p ++ n :: q)) (hf : (p ++ q).length ≤ fuel) :
    RepL (eraseL L n).1 (p ++ q) ∧
    iterVals (eraseL L n).1.heap L.sent fuel = some ((p ++ q).map L.heap.data) ∧
    (eraseL L n).1.sz = L.sz - 1 ∧
    (eraseL L n).2 = n ∧ n ∉ p ++ q := by
  rcases hrep with ⟨hrep1, hsz⟩
  have hnmem : n ∉ p ++ q := by
    have hnd := hrep1.2
    rcases List.nodup_cons.mp hnd with ⟨_, hndpq⟩
    rcases List.nodup_append.mp hndpq with ⟨_, hndnq, hdisj⟩
    rcases List.nodup_cons.mp hndnq with ⟨hnq, _⟩
    intro hm
    rcases List.mem_append.mp hm with hm2 | hm2
    · exact (List.disjoint_left.mp hdisj hm2) (List.mem_cons_self n q)
    · exact hnq hm2
  have hrep2 : Rep (eraseH L.heap n) L.sent (p ++ q) := eraseH_rep hrep1
  refine ⟨⟨hrep2, ?_⟩, ?_, rfl, rfl, hnmem⟩
  · show L.sz - 1 = (p ++ q).length
    rw [hsz]
    simp only [List.length_append, List.length_cons]
    omega
  · unfold iterVals
    rw [show (eraseL L n).1.heap = eraseH L.heap n from rfl]
    rw [iterFwd_of_rep hrep2 fuel hf]
    rfl

/-- Witness: erasing the node holding 2 from the concrete container
`[1, 2, 3]` yields the iteration sequence `[1, 3]`, size 2, and leaves the
caller's iterator on the erased node 2. -/
theorem erase_correct_witness :
    iterVals (eraseL list3 2).1.heap list3.sent 9 = some [1, 3] ∧
    (eraseL list3 2).1.sz = 2 ∧ (eraseL list3 2).2 = 2 := by
  have hrep : RepL list3 ([1] ++ 2 :: [3]) := by
    refine ⟨⟨?_, by decide⟩, rfl⟩
    exact DChain.cons rfl rfl (DChain.cons rfl rfl
      (DChain.cons rfl rfl (DChain.nil rfl rfl)))
  have h := erase_correct list3 [1] [3] 2 9 hrep (by decide)
  refine ⟨?_, ?_, h.2.2.2.1⟩
  · have h1 := h.2.1
    have he : List.map list3.heap.data ([1] ++ [3]) = [1, 3] := by decide
    rw [he] at h1
    exact h1
  · have h2 := h.2.2.1
    rw [h2]
    decide

/-- Witness: reversing the concrete container `[1, 2, 3]` yields the
iteration values `[3, 2, 1]` with the size counter untouched. -/
theorem reverse_correct_witness :
    iterVals (reverseL list3 4).heap list3.sent 4 = some [3, 2, 1] ∧
    (reverseL list3 4).sz = 3 := by
  have hrep : RepL list3 [1, 2, 3] := by
    refine ⟨⟨?_, by decide⟩, rfl⟩
    exact DChain.cons rfl rfl (DChain.cons rfl rfl
      (DChain.cons rfl rfl (DChain.nil rfl rfl)))
  have h := reverse_correct list3 [1, 2, 3] 4 hrep (by decide)
  refine ⟨?_, ?_⟩
  · have h1 := h.2.1
    have he : (List.map list3.heap.data [1, 2, 3]).reverse = [3, 2, 1] := by decide
    rw [he] at h1
    exact h1
  · have h3 := h.2.2.1
    rw [h3]
    decide

theorem lamb_rel {α : Type} [LinearOrder α] (ascending : Bool) (a b : α) :
    lamb ascending a b = !lamb_t ascending b a := by
  cases ascending
  · show decide (a > b) = !decide (b ≥ a)
    rw [← decide_not]
    exact decide_eq_decide.mpr lt_iff_not_le
  · show decide (a < b) = !decide (b ≤ a)
    rw [← decide_not]
    exact decide_eq_decide.mpr lt_iff_not_le

theorem lamb_t_trans {α : Type} [LinearOrder α] (ascending : Bool) (a b c : α) :
    lamb_t ascending a b = true → lamb_t ascending b c = true →
      lamb_t ascending a c = true := by
  cases ascending
  · show decide (a ≥ b) = true → decide (b ≥ c) = true → decide (a ≥ c) = true
    simp only [decide_eq_true_eq, ge_iff_le]
    exact fun h1 h2 => le_trans h2 h1
  · show decide (a ≤ b) = true → decide (b ≤ c) = true → decide (a ≤ c) = true
    simp only [decide_eq_true_eq]
    exact le_trans

theorem lamb_t_total {α : Type} [LinearOrder α] (ascending : Bool) (a b : α) :
    lamb_t ascending a b = true ∨ lamb_t ascending b a = true := by
  cases ascending
  · show decide (a ≥ b) = true ∨ decide (b ≥ a) = true
    simp only [decide_eq_true_eq, ge_iff_le]
    exact le_total b a
  · show decide (a ≤ b) = true ∨ decide (b ≤ a) = true
    simp only [decide_eq_true_eq]
    exact le_total a b

theorem lamb_t_refl {α : Type} [LinearOrder α] (ascending : Bool) (a : α) :
    lamb_t ascending a a = true := by
  cases ascending
  · show decide (a ≥ a) = true
    simp
  · show decide (a ≤ a) = true
    simp

theorem sortS_eq_isortFrom {α : Type} [LinearOrder α] (l : List α) (ascending : Bool) :
    sortS l ascending = isortFrom (lamb_t ascending) [] l :=
  sortG_eq_isortFrom (lamb_rel ascending) (lamb_t_trans ascending)
    (lamb_t_total ascending) l

theorem isortFrom_pairwise_stable {α : Type} {cmpT : α → α → Bool} {G : α → α → Prop}
    (Htrans : ∀ a b c, cmpT a b = true → cmpT b c = true → cmpT a c = true)
    (Htot : ∀ a b, cmpT a b = true ∨ cmpT b a = true)
    (HG : ∀ x z, cmpT z x = false → G x z) :
    ∀ (rest acc : List α), acc.Pairwise (fun a b => cmpT a b = true) →
      acc.Pairwise G → rest.Pairwise G →
      (∀ y ∈ acc, ∀ q ∈ rest, G y q) →
      (isortFrom cmpT acc rest).Pairwise G := by
  intro rest
  induction rest with
  | nil => intro acc _ hG _ _; exact hG
  | cons x rest ih =>
      intro acc hsort hG hrest hcross
      rcases List.pairwise_cons.mp hrest with ⟨hxrest, hrest2⟩
      have hGacc2 : (stInsert cmpT x acc).Pairwise G := by
        rw [stInsert_eq]
        have hsplit : acc =
            acc.takeWhile (fun y => cmpT y x) ++ acc.dropWhile (fun y => cmpT y x) :=
          (List.takeWhile_append_dropWhile _ _).symm
        have hGsplit := hG
        rw [hsplit, List.pairwise_append] at hGsplit
        rcases hGsplit with ⟨hGtw, hGdw, hGcross⟩
        have hdwfalse := cmpT_dropWhile_false Htrans x acc hsort
        refine List.pairwise_append.mpr ⟨hGtw, ?_, ?_⟩
        · refine List.pairwise_cons.mpr ⟨?_, hGdw⟩
          intro z hz
          exact HG x z (hdwfalse z hz)
        · intro a ha b hb
          rcases List.mem_cons.mp hb with rfl | hb
          · have haacc : a ∈ acc := (List.takeWhile_sublist _).subset ha
            exact hcross a haacc b (List.mem_cons_self b rest)
          · exact hGcross a ha b hb
      refine ih (stInsert cmpT x acc) (stInsert_sorted Htrans Htot x acc hsort)
        hGacc2 hrest2 ?_
      intro y hy q hq
      rcases (mem_stInsert cmpT x acc y).mp hy with rfl | hy
      · exact hxrest q hq
      · exact hcross y hy q (List.mem_cons_of_mem x hq)

theorem pairwise_fst_lt_enumFrom {α : Type} :
    ∀ (l : List α) (n : Nat),
      (List.enumFrom n l).Pairwise (fun p q : Nat × α => p.1 < q.1) := by
  intro l
  induction l with
  | nil => intro n; simp
  | cons a l ih =>
      intro n
      show ((n, a) :: List.enumFrom (n + 1) l).Pairwise (fun p q : Nat × α => p.1 < q.1)
      refine List.pairwise_cons.mpr ⟨?_, ih (n + 1)⟩
      rintro ⟨i, y⟩ hq
      exact Nat.lt_of_succ_le (List.mem_enumFrom hq).1

theorem pairwise_fst_lt_enum {α : Type} (l : List α) :
    l.enum.Pairwise (fun p q : Nat × α => p.1 < q.1) :=
  pairwise_fst_lt_enumFrom l 0

theorem stInsert_map_snd {α : Type} (cmpT : α → α → Bool) (x : Nat × α) :
    ∀ l : List (Nat × α),
      (stInsert (fun p q => cmpT p.2 q.2) x l).map Prod.snd =
        stInsert cmpT x.2 (l.map Prod.snd) := by
  intro l
  induction l with
  | nil => rfl
  | cons y ys ih =>
      by_cases h : cmpT y.2 x.2 = true
      · simp [stInsert, h, ih]
      · simp [stInsert, h]

theorem isortFrom_map_snd {α : Type} (cmpT : α → α → Bool) :
    ∀ (rest acc : List (Nat × α)),
      (isortFrom (fun p q => cmpT p.2 q.2) acc rest).map Prod.snd =
        isortFrom cmpT (acc.map Prod.snd) (rest.map Prod.snd) := by
  intro rest
  induction rest with
  | nil => intro acc; rfl
  | cons x rest ih =>
      intro acc
      show (isortFrom _ (stInsert _ x acc) rest).map Prod.snd = _
      rw [ih (stInsert _ x acc), stInsert_map_snd]
      rfl

/-- Claim C1: for every list over a linearly ordered element type,
`sort(true)` reorders the sequence into a non-decreasing one with the same
multiset of elements (a permutation), `sort(false)` into a non-increasing
one with the same multiset, and on a list of size 0 or 1 `sort` returns
immediately leaving the list unchanged. -/
theorem sort_correct {α : Type} [LinearOrder α] (l : List α) :
    (sortS l true).Perm l ∧
    List.Sorted (fun a b => a ≤ b) (sortS l true) ∧
    (sortS l false).Perm l ∧
    List.Sorted (fun a b => b ≤ a) (sortS l false) ∧
    ∀ ascending, l.length < 2 → sortS l ascending = l := by
  refine ⟨?_, ?_, ?_, ?_, ?_⟩
  · rw [sortS_eq_isortFrom]
    simpa using isortFrom_perm (lamb_t true) l []
  · rw [sortS_eq_isortFrom]
    have hs := isortFrom_sorted (lamb_t_trans true) (lamb_t_total true) l [] (by simp)
    refine List.Pairwise.imp ?_ hs
    intro a b h
    exact of_decide_eq_true h
  · rw [sortS_eq_isortFrom]
    simpa using isortFrom_perm (lamb_t false) l []
  · rw [sortS_eq_isortFrom]
    have hs := isortFrom_sorted (lamb_t_trans false) (lamb_t_total false) l [] (by simp)
    refine List.Pairwise.imp ?_ hs
    intro a b h
    exact of_decide_eq_true h
  · intro ascending hlen
    unfold sortS sortG
    rw [if_pos hlen]

/-- Witness: the sort theorem applied at concrete inputs; in particular a
singleton is returned unchanged by the early `sz_ < 2` exit. -/
theorem sort_correct_witness :
    List.Sorted (fun a b : Nat => a ≤ b) (sortS [2, 1, 3] true) ∧
    sortS ([7] : List Nat) true = [7] :=
  ⟨(sort_correct [2, 1, 3]).2.1, (sort_correct [7]).2.2.2.2 true (by decide)⟩

/-- Claim C8: the sort is stable.  Running the relocation loop on nodes
tagged with their original position (the comparison lambdas read only the
stored data, as in the source), any two nodes whose data compare equal end
up in their original relative order, for both `sort(true)` and
`sort(false)`; erasing the tags gives exactly the untagged sort result. -/
theorem sort_stable {α : Type} [LinearOrder α] (l : List α) (ascending : Bool) :
    (sortTagged l ascending).Pairwise (fun p q => p.2 = q.2 → p.1 < q.1) ∧
    (sortTagged l ascending).map Prod.snd = sortS l ascending := by
  have HrelP : ∀ p q : Nat × α,
      lamb ascending p.2 q.2 = !lamb_t ascending q.2 p.2 :=
    fun p q => lamb_rel ascending p.2 q.2
  have HtransP : ∀ p q r : Nat × α, lamb_t ascending p.2 q.2 = true →
      lamb_t ascending q.2 r.2 = true → lamb_t ascending p.2 r.2 = true :=
    fun p q r => lamb_t_trans ascending p.2 q.2 r.2
  have HtotP : ∀ p q : Nat × α,
      lamb_t ascending p.2 q.2 = true ∨ lamb_t ascending q.2 p.2 = true :=
    fun p q => lamb_t_total ascending p.2 q.2
  have HG : ∀ x z : Nat × α, lamb_t ascending z.2 x.2 = false →
      (x.2 = z.2 → x.1 < z.1) := by
    intro x z hf heq
    exfalso
    rw [← heq] at hf
    rw [lamb_t_refl ascending x.2] at hf
    exact Bool.noConfusion hf
  constructor
  · rw [sortTagged, sortG_eq_isortFrom HrelP HtransP HtotP]
    refine isortFrom_pairwise_stable HtransP HtotP HG l.enum [] (by simp) (by simp)
      ?_ (by simp)
    exact List.Pairwise.imp (fun h => fun _ => h) (pairwise_fst_lt_enum l)
  · rw [sortTagged, sortG_eq_isortFrom HrelP HtransP HtotP, isortFrom_map_snd,
      List.enum_map_snd, sortS_eq_isortFrom]
    rfl

/-- Claim C2: false on the code.  With `a = [1]` and `b = [2]`, the copy-merge
produces the element sequence `[1, 2]` (old sequence followed by a copy of
`b`, with `b` untouched), but `a.size()` is still 1 and not
`size_before_a + b.size() = 2`, because the loop of `merge(List&)` (lines
265-281) never increments `sz_`. -/
theorem merge_copy_size_bug :
    mergeCopyS (⟨[1], 1⟩ : ListS Nat) ⟨[2], 1⟩ = ⟨[1, 2], 1⟩ ∧
    (mergeCopyS (⟨[1], 1⟩ : ListS Nat) ⟨[2], 1⟩).sz ≠
      (⟨[1], 1⟩ : ListS Nat).sz + (⟨[2], 1⟩ : ListS Nat).sz := by
  decide

/-- Claim C5: false on the code.  The state reached from `a = [1]`, `b = [2]`
by the public operation `a.merge(b)` has two real nodes on the chain while
`size()` returns 1, so `size()` does not equal the number of real nodes:
`merge(List&)` splices one node per source element but never updates `sz_`. -/
theorem size_invariant_merge_bug :
    (mergeCopyS (⟨[1], 1⟩ : ListS Nat) ⟨[2], 1⟩).seq.length = 2 ∧
    (mergeCopyS (⟨[1], 1⟩ : ListS Nat) ⟨[2], 1⟩).sz = 1 ∧ (1 : Nat) ≠ 2 := by
  decide

/-- Claim C6: false on the code.  Copy self-assignment `a = a` first runs
`clear()` on `*this`, and then copies from `copy_list`, which aliases the
now-empty `*this`: for `a = [1]` the result is the empty container, not a
container still holding `[1]`. -/
theorem self_assign_clears_bug :
    selfCopyAssignS (⟨[1], 1⟩ : ListS Nat) = ⟨[], 0⟩ ∧
    (⟨[], 0⟩ : ListS Nat) ≠ ⟨[1], 1⟩ := by
  decide

/-- Claim C7: false on the code.  When the element constructor throws inside
`obj_construct` (after `allocate` succeeded), the exception propagates before
the returned pointer is assigned, so `new_node` in `push_back` is still
`nullptr` in the catch block: `obj_destruct(nullptr)` releases nothing and
the allocated node leaks.  The container itself is unchanged, the failure is
signalled (`false`), but the allocator balance rose from 0 to 1. -/
theorem push_back_leak_bug :
    push_backF (⟨[5], 1⟩ : ListS Nat) ⟨0⟩ 7 BuildOutcome.ctorFail =
      (⟨[5], 1⟩, ⟨1⟩, false) ∧
    (⟨1⟩ : AllocSt) ≠ ⟨0⟩ := by
  decide

/-- Claim C4: false on the code.  `swap` exchanges only the two sentinels'
own link fields; the boundary nodes of each chain still point back at their
original sentinel.  For `a = [1]` (sentinel 0, node 2) and `b = [2]`
(sentinel 1, node 3), forward iteration of `a` after `a.swap(b)` visits the
nodes `[3, 1, 2]` with values `[2, 0, 1]` - it walks through `b`'s sentinel
(address 1) and through `a`'s old node - instead of `b`'s former one-element
sequence `[3]` with values `[2]`.  The self-swap early return is a no-op. -/
theorem swap_corruption_bug :
    iterFwd (swapFullH heapAB 0 1) 0 10 = some [3, 1, 2] ∧
    iterVals (swapFullH heapAB 0 1) 0 10 = some [2, 0, 1] ∧
    iterFwd heapAB 1 10 = some [3] ∧
    iterVals heapAB 1 10 = some [2] ∧
    (1 : Nat) ∈ [3, 1, 2] ∧
    (∀ (h : Heap Nat) (s : Nat), swapFullH h s s = h) := by
  refine ⟨by decide, by decide, by decide, by decide, by decide, ?_⟩
  intro h s
  simp [swapFullH]

/-- Claim C3: false on the code for an empty source.  Moving from an empty
list `b` (sentinel 1) into `a` (sentinel 0) leaves `a`'s sentinel links
aimed at `b`'s sentinel, which is then reset to self-reference: `b` is
correctly emptied, but `a.begin() != a.end()` while `a.size() == 0`, and
forward iteration of `a` loops at `b`'s dead sentinel forever, never
yielding the (empty) sequence `b` held. -/
theorem move_assign_empty_bug :
    moveAssignFullH heapEmptyAB 0 1 5 = some heapMoveBug ∧
    heapMoveBug.next 0 = 1 ∧
    heapMoveBug.prev 0 = 1 ∧
    (1 : Nat) ≠ 0 ∧
    heapMoveBug.next 1 = 1 ∧
    heapMoveBug.prev 1 = 1 ∧
    ∀ fuel, iterFwd heapMoveBug 0 fuel = none := by
  refine ⟨rfl, rfl, rfl, by decide, rfl, rfl, ?_⟩
  have hstep : ∀ fuel, iterNodes heapMoveBug 0 1 fuel = none := by
    intro fuel
    induction fuel with
    | zero => rfl
    | succ f ih =>
        show (if (1 : Nat) = 0 then some [] else
          (iterNodes heapMoveBug 0 (heapMoveBug.next 1) f).map (1 :: ·)) = none
        rw [if_neg (by decide)]
        rw [show heapMoveBug.next 1 = 1 from rfl, ih]
        rfl
  intro fuel
  show iterNodes heapMoveBug 0 (heapMoveBug.next 0) fuel = none
  rw [show heapMoveBug.next 0 = 1 from rfl]
  exact hstep fuel

/-- Claim C10, counterexample to the claim as stated: erasing the iterator at
value 2 from `[1, 2, 3]` does yield `[1, 3]` with size 2, but `erase` returns
`void` and never advances the passed iterator, so the position the caller is
left with is node 2 itself - the erased, destroyed node, which is no longer
on the chain. -/
theorem erase_iterator_counterexample :
    (eraseL list3 2).2 = 2 ∧
    iterFwd (eraseL list3 2).1.heap 0 10 = some [1, 3] ∧
    iterVals (eraseL list3 2).1.heap 0 10 = some [1, 3] ∧
    (2 : Nat) ∉ [1, 3] ∧
    (eraseL list3 2).1.sz = 2 := by
  decide

end mls
